import Mathlib

/-!
Verification development for the block processing and state-commitment
subsystem of a sharded blockchain node (elrond-go).

The repository sources available here contain the test suites, the node
facade and configuration types; the implementation files of the accounts
database (state/accountsDB.go), the block processor
(process/block/baseProcess.go, process/block/shardblock.go) and the
notarization bookkeeping are not present.  Those components are therefore
modelled from the natural-language specification, with the behaviour on
concrete inputs pinned by the tests of the repository (src/unnamed/part_001).
Every modelled definition carries a doc comment identifying what is missing
and which specification sentences it follows.
-/

namespace Elrond

/-- Byte strings are modelled as lists of natural numbers. -/
abbrev Bytes := List Nat

/-! ## Accounts database: code store, journal and revert

Modelled components: state/accountsDB.go (SaveAccount, RemoveAccount,
RevertToSnapshot, the saveCode / updateOldCodeEntry / updateNewCodeEntry
helpers and the journal entries of state/journalEntries.go).
-/

/-- A code-store entry: the code bytes together with the explicit reference
count.  Spec: code is stored keyed by its hash with an explicit reference
count. -/
structure CodeEntry where
  code : Bytes
  numReferences : Nat
deriving DecidableEq, Repr

/-- An account record.  The specification lists nonce, balance, code hash and
further fields; the claims under verification only exercise the code hash,
the remaining fields are carried along unchanged. -/
structure Account where
  nonce : Nat
  balance : Int
  codeHash : Option Bytes
deriving DecidableEq, Repr

/-- The in-memory account created by LoadAccount for a missing address. -/
def Account.empty : Account := { nonce := 0, balance := 0, codeHash := none }

/-- The code store: a map from code hash to code entry. -/
abbrev CodeStore := Bytes → Option CodeEntry

/-- Pointwise update of the code store (trie Update keyed by code hash;
updating with none removes the entry). -/
def setEntry (cs : CodeStore) (h : Bytes) (v : Option CodeEntry) : CodeStore :=
  fun k => if k = h then v else cs k

/-- Modelled from the spec: updateOldCodeEntry of state/accountsDB.go.
SaveAccount transitioning an account away from old code decrements the old
count and deletes the entry at zero; an absent old entry is left alone. -/
def updateOldCodeStore (cs : CodeStore) : Option Bytes → CodeStore
  | none => cs
  | some h =>
    match cs h with
    | none => cs
    | some e =>
      if e.numReferences ≤ 1 then setEntry cs h none
      else setEntry cs h (some { code := e.code, numReferences := e.numReferences - 1 })

/-- Modelled from the spec: updateNewCodeEntry of state/accountsDB.go.
SaveAccount transitioning an account to new code increments the count of the
existing entry or creates the entry with count one. -/
def updateNewCodeStore (cs : CodeStore) (newCode : Bytes) : Option Bytes → CodeStore
  | none => cs
  | some h =>
    match cs h with
    | none => setEntry cs h (some { code := newCode, numReferences := 1 })
    | some e => setEntry cs h (some { code := e.code, numReferences := e.numReferences + 1 })

/-- Modelled from the spec: the journal is a tagged-variant undo log.  A code
change entry stores the unmodified old entry together with the old and new
code hashes, exactly the payload of journalEntryCode. -/
inductive JournalEntry where
  | accountCreation (address : Bytes)
  | accountUpdate (address : Bytes) (oldAccount : Account)
  | codeChange (oldEntry : Option CodeEntry) (oldCodeHash newCodeHash : Option Bytes)
deriving DecidableEq, Repr

/-- The data part of the accounts database: the accounts map and the code
store. -/
@[ext]
structure AccountsData where
  accounts : Bytes → Option Account
  codeStore : CodeStore

/-- The accounts database: data plus the ordered journal of undo entries. -/
structure AccountsDB where
  data : AccountsData
  journal : List JournalEntry

/-- The mutations exercised by the claims: SaveAccount of an account whose
code is set to the given bytes (empty bytes meaning no code), and
RemoveAccount. -/
inductive Op where
  | save (address : Bytes) (code : Bytes)
  | remove (address : Bytes)
deriving DecidableEq, Repr

/-- Modelled from the spec: one journaled mutation of state/accountsDB.go.
For save it follows SaveAccount: journalize the old account (or a creation
entry), and when the code hash changes run updateOldCodeEntry and
updateNewCodeEntry and journalize a code change entry holding the unmodified
old entry.  For remove it follows RemoveAccount: journalize the old account,
decrement or delete the referenced code entry with a code change entry, and
delete the account.  Returns the new data together with the journal entries
appended by the mutation, in order. -/
def opStep (hasher : Bytes → Bytes) (d : AccountsData) : Op → AccountsData × List JournalEntry
  | .save a c =>
    let oldAcc := d.accounts a
    let base := oldAcc.getD Account.empty
    let oldCodeHash := base.codeHash
    let newCodeHash : Option Bytes := if c = [] then none else some (hasher c)
    let newAcc : Account := { base with codeHash := newCodeHash }
    let acctEntry : JournalEntry :=
      match oldAcc with
      | none => .accountCreation a
      | some old => .accountUpdate a old
    if oldCodeHash = newCodeHash then
      ({ accounts := fun k => if k = a then some newAcc else d.accounts k,
         codeStore := d.codeStore },
       [acctEntry])
    else
      ({ accounts := fun k => if k = a then some newAcc else d.accounts k,
         codeStore := updateNewCodeStore (updateOldCodeStore d.codeStore oldCodeHash) c newCodeHash },
       [acctEntry, .codeChange (oldCodeHash.bind d.codeStore) oldCodeHash newCodeHash])
  | .remove a =>
    match d.accounts a with
    | none => (d, [])
    | some acc =>
      ({ accounts := fun k => if k = a then none else d.accounts k,
         codeStore := updateOldCodeStore d.codeStore acc.codeHash },
       [.accountUpdate a acc, .codeChange (acc.codeHash.bind d.codeStore) acc.codeHash none])

/-- Modelled from the spec: revertOldCodeEntry of journalEntryCode.  The
unmodified old entry saved in the journal is written back, restoring the
exact prior reference count. -/
def revertOldCodeStore (cs : CodeStore) (oldEntry : Option CodeEntry) : Option Bytes → CodeStore
  | none => cs
  | some h =>
    match oldEntry with
    | none => cs
    | some e => setEntry cs h (some e)

/-- Modelled from the spec: revertNewCodeEntry of journalEntryCode.  The new
code entry loses the reference added by the mutation: its count is
decremented, and the entry is deleted when the count would reach zero. -/
def revertNewCodeStore (cs : CodeStore) : Option Bytes → CodeStore
  | none => cs
  | some h =>
    match cs h with
    | none => cs
    | some e =>
      if e.numReferences ≤ 1 then setEntry cs h none
      else setEntry cs h (some { code := e.code, numReferences := e.numReferences - 1 })

/-- Modelled from the spec: journalEntryCode.Revert.  When old and new code
hashes coincide nothing was changed; otherwise the old entry is restored and
the new entry dereferenced. -/
def revertCodeStore (cs : CodeStore) (oldEntry : Option CodeEntry) (oldH newH : Option Bytes) : CodeStore :=
  if oldH = newH then cs
  else revertNewCodeStore (revertOldCodeStore cs oldEntry oldH) newH

/-- Modelled from the spec: reverting a single journal entry. -/
def revertEntry (d : AccountsData) : JournalEntry → AccountsData
  | .accountCreation a =>
    { d with accounts := fun k => if k = a then none else d.accounts k }
  | .accountUpdate a old =>
    { d with accounts := fun k => if k = a then some old else d.accounts k }
  | .codeChange oldEntry oldH newH =>
    { d with codeStore := revertCodeStore d.codeStore oldEntry oldH newH }

/-- The revert error of state/errors.go returned when the snapshot index is
out of bounds. -/
inductive StateErr where
  | snapshotValueOutOfBounds
deriving DecidableEq, Repr

/-- Modelled from the spec: AccountsDB.RevertToSnapshot.  A snapshot index
beyond the journal length is rejected with ErrSnapshotValueOutOfBounds;
otherwise the journal entries beyond the index are replayed from the tail
backwards and discarded. -/
def revertToSnapshot (s : AccountsDB) (snapshot : Nat) : Except StateErr AccountsDB :=
  if s.journal.length < snapshot then .error .snapshotValueOutOfBounds
  else .ok { data := ((s.journal.drop snapshot).reverse).foldl revertEntry s.data,
             journal := s.journal.take snapshot }

/-- Apply one mutation to the database, appending its journal entries. -/
def applyOp (hasher : Bytes → Bytes) (s : AccountsDB) (op : Op) : AccountsDB :=
  { data := (opStep hasher s.data op).1,
    journal := s.journal ++ (opStep hasher s.data op).2 }

/-- Apply a list of mutations in order. -/
def applyOps (hasher : Bytes → Bytes) (ops : List Op) (s : AccountsDB) : AccountsDB :=
  ops.foldl (applyOp hasher) s

/-- A freshly created accounts database over an empty trie. -/
def initAccountsDB : AccountsDB :=
  { data := { accounts := fun _ => none, codeStore := fun _ => none }, journal := [] }

/-- Run a list of mutations on the data part, collecting all appended
journal entries. -/
def runOps (hasher : Bytes → Bytes) (d : AccountsData) : List Op → AccountsData × List JournalEntry
  | [] => (d, [])
  | op :: rest =>
    let p := opStep hasher d op
    let q := runOps hasher p.1 rest
    (q.1, p.2 ++ q.2)

/-- Every code-store entry carries at least one reference. -/
def goodRefs (cs : CodeStore) : Prop :=
  ∀ h e, cs h = some e → 1 ≤ e.numReferences


/-! ## Block processor: header validity, epoch check, process block

Modelled components: process/block/baseProcess.go (checkBlockValidity,
requestHeadersIfMissing, saveLastNotarizedHeader, PruneStateOnRollback,
commitTrieEpochRootHashIfNeeded) and process/block/shardblock.go
(ProcessBlock, checkEpochCorrectness), none of which are under the available
sources; only their tests are.  The behaviour on concrete inputs is pinned
by TestBlockProcessor_CheckBlockValidity and the further tests cited by the
claims. -/

/-- A block header.  Headers and meta blocks are merged into one record; the
validator statistics root only occurs on meta blocks. -/
structure Header where
  nonce : Nat
  round : Nat
  epoch : Nat
  prevHash : Bytes
  prevRandSeed : Bytes
  randSeed : Bytes
  rootHash : Bytes
  epochStartMetaHash : Bytes
  validatorStatsRootHash : Bytes
deriving DecidableEq, Repr

/-- The chain state checkBlockValidity reads: the optional current head with
its stored hash, and the genesis data. -/
structure Blockchain where
  currentHeader : Option Header
  currentHeaderHash : Bytes
  genesisNonce : Nat
  genesisHeaderHash : Bytes
deriving DecidableEq, Repr

/-- The validation errors of the process package exercised by the claims. -/
inductive ProcessErr where
  | wrongNonceInBlock
  | blockHashDoesNotMatch
  | lowerRoundInBlock
  | randSeedDoesNotMatch
  | epochDoesNotMatch
  | rootHashDoesNotMatch
  | notarizedHeadersSliceForShardIsNil
deriving DecidableEq, Repr

/-- Modelled from the spec: checkBlockValidity of process/block/baseProcess.go.
With no current head the candidate must be the first block after genesis: its
nonce must be the genesis nonce plus one (else ErrWrongNonceInBlock) and its
previous hash must be the genesis header hash (else ErrBlockHashDoesNotMatch).
With a current head the round must strictly increase, then the nonce must be
the head nonce plus one, then the previous hash must equal the stored head
hash, then the previous random seed must equal the head randomness; the check
order is pinned by TestBlockProcessor_CheckBlockValidity. -/
def checkBlockValidity (bc : Blockchain) (hdr : Header) : Option ProcessErr :=
  match bc.currentHeader with
  | none =>
    if hdr.nonce = bc.genesisNonce + 1 then
      if hdr.prevHash = bc.genesisHeaderHash then none
      else some .blockHashDoesNotMatch
    else some .wrongNonceInBlock
  | some cur =>
    if hdr.round ≤ cur.round then some .lowerRoundInBlock
    else if hdr.nonce ≠ cur.nonce + 1 then some .wrongNonceInBlock
    else if hdr.prevHash ≠ bc.currentHeaderHash then some .blockHashDoesNotMatch
    else if hdr.prevRandSeed ≠ cur.randSeed then some .randSeedDoesNotMatch
    else none

/-- The locally tracked epoch-start trigger, reduced to the data the epoch
check consumes. -/
structure EpochStartTrigger where
  epoch : Nat
  epochStartMetaHdrHash : Bytes
deriving DecidableEq, Repr

/-- Modelled from the spec: the epoch consistency check of ProcessBlock
(checkEpochCorrectness of process/block/shardblock.go).  A candidate whose
epoch differs from the epoch of the locally tracked epoch-start trigger is
rejected with ErrEpochDoesNotMatch, except when the epoch-start metadata
hash of the header equals the epoch-start metadata header hash held by the
trigger (explicit attestation). -/
def checkEpochCorrectness (trigger : EpochStartTrigger) (hdr : Header) : Option ProcessErr :=
  if hdr.epoch ≠ trigger.epoch ∧ hdr.epochStartMetaHash ≠ trigger.epochStartMetaHdrHash then
    some .epochDoesNotMatch
  else none

/-- Modelled from the spec: ProcessBlock of process/block/shardblock.go,
reduced to the stages the claims exercise: structural validity, the epoch
check, and the byte-for-byte comparison of the declared root hash against
the root computed by applying the body. -/
def processBlock (bc : Blockchain) (trigger : EpochStartTrigger)
    (computedRootHash : Bytes) (hdr : Header) : Option ProcessErr :=
  match checkBlockValidity bc hdr with
  | some e => some e
  | none =>
    match checkEpochCorrectness trigger hdr with
    | some e => some e
    | none =>
      if hdr.rootHash = computedRootHash then none else some .rootHashDoesNotMatch

/-! ## Bounded header requests -/

/-- The bound on header requests per missing-header scan
(process.MaxHeaderRequestsAllowed); its value is pinned by
TestBlockProcessor_RequestHeadersIfMissingShouldWorkWhenSortedHeadersListIsEmpty. -/
def maxHeaderRequestsAllowed : Nat := 20

/-- The nonce and round of a tracked header, the data the request scan
consumes. -/
structure HdrInfo where
  nonce : Nat
  round : Nat
deriving DecidableEq, Repr

/-- The nonces strictly between lo and hi. -/
def gapNonces (lo hi : Nat) : List Nat := List.range' (lo + 1) (hi - lo - 1)

/-- Modelled from the spec: the scan of the sorted headers list inside
requestHeadersIfMissing.  Headers at or below the cross-notarized watermark
are skipped; between consecutive retained headers the missing nonces are
collected; the last retained header (or the watermark itself) is returned. -/
def walkSorted (lastNotarizedNonce : Nat) (prev : HdrInfo) : List HdrInfo → List Nat × HdrInfo
  | [] => ([], prev)
  | h :: rest =>
    if h.nonce ≤ lastNotarizedNonce then walkSorted lastNotarizedNonce prev rest
    else
      let q := walkSorted lastNotarizedNonce h rest
      (gapNonces prev.nonce h.nonce ++ q.1, q.2)

/-- Modelled from the spec: requestHeadersIfMissing of
process/block/baseProcess.go.  Starting from the last cross-notarized header
of the shard it collects the nonces missing among the sorted headers, then
looks ahead from the last known header by the number of rounds elapsed less
two, and keeps only nonces within maxHeaderRequestsAllowed of the notarized
watermark; one request is issued per returned nonce.  The concrete outputs
are pinned by TestBlockProcessor_RequestHeadersIfMissingShouldWork and the
empty-list variant. -/
def requestHeadersIfMissing (lastNotarized : HdrInfo) (sortedHeaders : List HdrInfo)
    (currentRound : Nat) : List Nat :=
  let p := walkSorted lastNotarized.nonce lastNotarized sortedHeaders
  let ahead :=
    if p.2.round + 2 < currentRound then
      List.range' (p.2.nonce + 1) (currentRound - p.2.round - 2)
    else []
  (p.1 ++ ahead).filter (fun m => m ≤ lastNotarized.nonce + maxHeaderRequestsAllowed)

/-! ## Epoch root hash archive -/

/-- Big-endian byte encoding of a natural number on k bytes, the encoding
used by the big-endian uint64 converter keying the trie-epoch-root-hash
unit. -/
def beBytes : Nat → Nat → List Nat
  | 0, _ => []
  | k + 1, n => beBytes k (n / 256) ++ [n % 256]

/-- Big-endian decoding, as the converter ToUint64. -/
def toUint64BE (bs : List Nat) : Nat := bs.foldl (fun acc b => acc * 256 + b) 0

/-- One leaf of the accounts trie as consumed by the epoch commit: its
address and the root hash of its own data trie. -/
structure EpochAccount where
  address : Bytes
  dataTrieRootHash : Bytes
deriving DecidableEq, Repr

/-- The observable effects of the epoch commit: writes into the
trie-epoch-root-hash unit and the root hashes handed to the leaf
enumeration. -/
structure CommitTrieResult where
  puts : List (Bytes × Bytes)
  leafEnumerationRoots : List Bytes
deriving DecidableEq, Repr

/-- Modelled from the spec: commitTrieEpochRootHashIfNeeded of
process/block/baseProcess.go.  For a header at the given epoch the committed
user-accounts root hash is written into the trie-epoch-root-hash unit under
the big-endian uint64 encoding of the epoch, and the account leaves are
enumerated at that root; only when ProcessDataTrieOnCommitEpoch is set is
the enumeration additionally invoked with the own data-trie root hash of
each account. -/
def commitTrieEpochRootHashIfNeeded (epoch : Nat) (userAccountsRootHash : Bytes)
    (leaves : List EpochAccount) (processDataTrieOnCommitEpoch : Bool) : CommitTrieResult :=
  { puts := [(beBytes 8 epoch, userAccountsRootHash)],
    leafEnumerationRoots :=
      userAccountsRootHash ::
        (if processDataTrieOnCommitEpoch then leaves.map (fun l => l.dataTrieRootHash) else []) }

/-! ## Notarization bookkeeping -/

/-- The metachain shard identifier (core.MetachainShardId). -/
def metachainShardId : Nat := 4294967295

/-- The per-shard notarized headers bookkeeping: for each shard either an
absent slice or the ordered list of notarized headers. -/
structure NotarizationState where
  notarizedHdrs : Nat → Option (List Header)

/-- The highest-nonce entry of a non-empty header list. -/
def pickHighestNonce (first : Header) (rest : List Header) : Header :=
  rest.foldl (fun best h => if best.nonce < h.nonce then h else best) first

/-- Modelled from the spec: saveLastNotarizedHeader of
process/block/baseProcess.go.  The notarized-headers slice must be present
both for the given shard and for the internally tracked metachain slot,
failing with ErrNotarizedHeadersSliceForShardIsNil otherwise; on success the
highest-nonce entry of the list is appended as the new last notarized header
of the shard. -/
def saveLastNotarizedHeader (st : NotarizationState) (shardId : Nat)
    (hdrs : List Header) : Except ProcessErr NotarizationState :=
  match st.notarizedHdrs shardId with
  | none => .error .notarizedHeadersSliceForShardIsNil
  | some cur =>
    match st.notarizedHdrs metachainShardId with
    | none => .error .notarizedHeadersSliceForShardIsNil
    | some _ =>
      match hdrs with
      | [] => .ok st
      | h :: rest =>
        .ok { notarizedHdrs := fun k =>
                if k = shardId then some (cur ++ [pickHighestNonce h rest])
                else st.notarizedHdrs k }

/-- Modelled from the spec: LastNotarizedHdrForShard, a pure read of the last
entry of the notarized slice of the shard. -/
def lastNotarizedHdrForShard (st : NotarizationState) (shardId : Nat) : Option Header :=
  (st.notarizedHdrs shardId).bind (fun l => l.getLast?)

/-! ## Pruning on rollback -/

/-- The two accounts databases held by the block processor. -/
inductive DbId where
  | user
  | peer
deriving DecidableEq, Repr

/-- A call into an accounts database eviction interface. -/
inductive PruneAction where
  | pruneTrie (rootHash : Bytes)
  | cancelPrune (rootHash : Bytes)
deriving DecidableEq, Repr

/-- Modelled from the spec: PruneStateOnRollback of
process/block/baseProcess.go.  The main state trie and the validator
statistics trie are handled independently: for each, when pruning is enabled
on the corresponding accounts database and the root of the current header
differs from the root of the previous header, the nodes at the previous root
are pruned and the prune of the current root is cancelled; the emitted calls
are returned in order. -/
def pruneStateOnRollback (currHeader prevHeader : Header)
    (userPruningEnabled peerPruningEnabled : Bool) : List (DbId × PruneAction) :=
  (if userPruningEnabled = true ∧ currHeader.rootHash ≠ prevHeader.rootHash then
    [(.user, .pruneTrie prevHeader.rootHash), (.user, .cancelPrune currHeader.rootHash)]
   else []) ++
  (if peerPruningEnabled = true ∧
      currHeader.validatorStatsRootHash ≠ prevHeader.validatorStatsRootHash then
    [(.peer, .pruneTrie prevHeader.validatorStatsRootHash),
     (.peer, .cancelPrune currHeader.validatorStatsRootHash)]
   else [])

/-! ## Concrete scenario data

Inputs used to instantiate the claims on concrete runs; byte values follow
the cited tests (the code bytes spell the word code, the stored head hash is
the byte of X). -/

/-- The code bytes shared by the two accounts of the scenario. -/
def demoCode : Bytes := [99, 111, 100, 101]

/-- The scenario of the revert claims: save two accounts with the same code,
then remove the first. -/
def demoOps : List Op := [.save [0] demoCode, .save [1] demoCode, .remove [0]]

/-- The identity hasher used to run scenarios (any deterministic hasher is
admissible by the spec). -/
def idHasher : Bytes → Bytes := fun b => b

/-- An all-zero header used as a base for scenario headers. -/
def hdrZero : Header :=
  { nonce := 0, round := 0, epoch := 0, prevHash := [], prevRandSeed := [],
    randSeed := [], rootHash := [], epochStartMetaHash := [], validatorStatsRootHash := [] }

/-- The stored head of the validity scenario: nonce 1, round 1. -/
def headX : Header := { hdrZero with nonce := 1, round := 1 }

/-- The chain of the validity scenario: head stored under hash X. -/
def bcX : Blockchain :=
  { currentHeader := some headX, currentHeaderHash := [88],
    genesisNonce := 0, genesisHeaderHash := [] }

/-- The candidate of the first validity scenario: nonce 2, round 1,
previous hash X. -/
def hdrNonce2Round1 : Header := { hdrZero with nonce := 2, round := 1, prevHash := [88] }

/-- The candidate of the second validity scenario: nonce 2, round 2,
previous hash X, previous random seed matching the head randomness. -/
def hdrNonce2Round2 : Header := { hdrZero with nonce := 2, round := 2, prevHash := [88] }

/-- An empty chain: no current header stored (genesis case). -/
def bcGenesis : Blockchain :=
  { currentHeader := none, currentHeaderHash := [],
    genesisNonce := 0, genesisHeaderHash := [] }

/-- The candidate of the genesis scenario: nonce 1, round 1, previous hash X
while the genesis header hash is empty. -/
def hdrGenesisBadPrev : Header := { hdrZero with nonce := 1, round := 1, prevHash := [88] }

/-- The trigger of the epoch scenario: locally tracked epoch 2 with a known
epoch-start metadata header hash. -/
def trigEpoch : EpochStartTrigger := { epoch := 2, epochStartMetaHdrHash := [7] }

/-- The candidate of the epoch scenario: epoch 3 on a chain in epoch 2, with
the epoch-start metadata hash attested by the trigger. -/
def hdrEpoch : Header :=
  { hdrZero with nonce := 2, round := 2, epoch := 3, prevHash := [88], epochStartMetaHash := [7] }

/-- A notarization state tracking shard 0 and the metachain with empty
slices. -/
def notarState : NotarizationState :=
  { notarizedHdrs := fun k =>
      if k = 0 then some [] else if k = metachainShardId then some [] else none }

/-- The header list of the notarization scenario, nonces 1, 10, 4. -/
def notarHdrs : List Header :=
  [{ hdrZero with nonce := 1, round := 1 },
   { hdrZero with nonce := 10, round := 10 },
   { hdrZero with nonce := 4, round := 4 }]

/-- The current header of the rollback scenario: same state root as the
previous header, different validator statistics root. -/
def currRollback : Header :=
  { hdrZero with rootHash := [1], validatorStatsRootHash := [3] }

/-- The previous header of the rollback scenario. -/
def prevRollback : Header :=
  { hdrZero with rootHash := [1], validatorStatsRootHash := [2] }

/-! ### Lemmas: the journaled code reference counting is exactly reversible -/

theorem setEntry_same (cs : CodeStore) (h : Bytes) (v : Option CodeEntry) :
    setEntry cs h v h = v := by
  simp [setEntry]

theorem setEntry_other (cs : CodeStore) (h k : Bytes) (v : Option CodeEntry) (hk : k ≠ h) :
    setEntry cs h v k = cs k := by
  simp [setEntry, hk]

theorem setEntry_setEntry (cs : CodeStore) (h : Bytes) (v w : Option CodeEntry) :
    setEntry (setEntry cs h v) h w = setEntry cs h w := by
  funext k
  by_cases hk : k = h <;> simp [setEntry, hk]

theorem setEntry_cancel (cs : CodeStore) (h : Bytes) (v : Option CodeEntry) (hv : cs h = v) :
    setEntry cs h v = cs := by
  funext k
  by_cases hk : k = h <;> simp [setEntry, hk, hv]

theorem setEntry_comm (cs : CodeStore) (h k : Bytes) (v w : Option CodeEntry) (hk : h ≠ k) :
    setEntry (setEntry cs h v) k w = setEntry (setEntry cs k w) h v := by
  funext m
  by_cases hm : m = k <;> by_cases hm2 : m = h <;>
    simp_all [setEntry]

theorem updateOldCodeStore_ne (cs : CodeStore) (ho k : Bytes) (hk : k ≠ ho) :
    updateOldCodeStore cs (some ho) k = cs k := by
  simp only [updateOldCodeStore]
  rcases cs ho with _ | e
  · rfl
  · dsimp only
    split <;> exact setEntry_other _ _ _ _ hk

theorem revertOld_cancel (cs : CodeStore) (ho : Bytes) :
    revertOldCodeStore (updateOldCodeStore cs (some ho)) (cs ho) (some ho) = cs := by
  rcases hco : cs ho with _ | e
  · simp [updateOldCodeStore, revertOldCodeStore, hco]
  · simp only [updateOldCodeStore, revertOldCodeStore, hco]
    split <;> rw [setEntry_setEntry, setEntry_cancel _ _ _ hco]

theorem revertNew_cancel (cs : CodeStore) (hn : Bytes) (c : Bytes)
    (hgood : ∀ e, cs hn = some e → 1 ≤ e.numReferences) :
    revertNewCodeStore (updateNewCodeStore cs c (some hn)) (some hn) = cs := by
  rcases hcn : cs hn with _ | e
  · simp only [updateNewCodeStore, hcn, revertNewCodeStore, setEntry_same]
    rw [if_pos (by omega), setEntry_setEntry, setEntry_cancel _ _ _ hcn]
  · have hge := hgood e hcn
    simp only [updateNewCodeStore, hcn, revertNewCodeStore, setEntry_same]
    rw [if_neg (by omega), setEntry_setEntry, Nat.add_sub_cancel,
      setEntry_cancel _ _ _ hcn]

theorem revertNew_setEntry (cs : CodeStore) (ho hn : Bytes) (v : Option CodeEntry)
    (hne : ho ≠ hn) :
    revertNewCodeStore (setEntry cs ho v) (some hn)
      = setEntry (revertNewCodeStore cs (some hn)) ho v := by
  have hlook : setEntry cs ho v hn = cs hn := setEntry_other _ _ _ _ (Ne.symm hne)
  simp only [revertNewCodeStore, hlook]
  rcases cs hn with _ | e
  · rfl
  · dsimp only
    split
    · exact setEntry_comm _ _ _ _ _ hne
    · exact setEntry_comm _ _ _ _ _ hne

/-- The central inversion property: a code-store update performed by a
mutation (old entry dereferenced, new entry referenced) is undone exactly by
the corresponding code change journal entry, entry by entry, provided every
live entry has at least one reference. -/
theorem revert_update_cancel (cs : CodeStore) (oldH newH : Option Bytes) (c : Bytes)
    (hgood : goodRefs cs) (hne : oldH ≠ newH) :
    revertCodeStore (updateNewCodeStore (updateOldCodeStore cs oldH) c newH)
      (oldH.bind cs) oldH newH = cs := by
  rw [revertCodeStore, if_neg hne]
  match oldH, newH with
  | none, none => exact absurd rfl hne
  | none, some hn =>
    exact revertNew_cancel cs hn c (fun e he => hgood hn e he)
  | some ho, none =>
    exact revertOld_cancel cs ho
  | some ho, some hn =>
    have hhn : ho ≠ hn := by
      intro h
      exact hne (by rw [h])
    rcases hco : cs ho with _ | e
    · have h1 : updateOldCodeStore cs (some ho) = cs := by
        simp [updateOldCodeStore, hco]
      rw [h1]
      simp only [Option.bind, hco, revertOldCodeStore]
      exact revertNew_cancel cs hn c (fun e he => hgood hn e he)
    · simp only [Option.bind, hco, revertOldCodeStore]
      rw [revertNew_setEntry _ _ _ _ hhn]
      have h2 : (updateOldCodeStore cs (some ho)) hn = cs hn :=
        updateOldCodeStore_ne cs ho hn (Ne.symm hhn)
      rw [revertNew_cancel (updateOldCodeStore cs (some ho)) hn c
        (fun e2 he2 => hgood hn e2 (h2 ▸ he2))]
      simp only [updateOldCodeStore, hco]
      split <;> rw [setEntry_setEntry, setEntry_cancel _ _ _ hco]

theorem goodRefs_setEntry (cs : CodeStore) (h : Bytes) (v : Option CodeEntry)
    (hgood : goodRefs cs) (hv : ∀ e, v = some e → 1 ≤ e.numReferences) :
    goodRefs (setEntry cs h v) := by
  intro k e hk
  by_cases hkh : k = h
  · rw [hkh, setEntry_same] at hk
    exact hv e hk
  · rw [setEntry_other _ _ _ _ hkh] at hk
    exact hgood k e hk

theorem goodRefs_updateOld (cs : CodeStore) (oldH : Option Bytes)
    (hgood : goodRefs cs) : goodRefs (updateOldCodeStore cs oldH) := by
  rcases oldH with _ | ho
  · exact hgood
  · simp only [updateOldCodeStore]
    rcases cs ho with _ | e
    · exact hgood
    · dsimp only
      split
      next h1 =>
        exact goodRefs_setEntry _ _ _ hgood (fun e2 he2 => by cases he2)
      next h1 =>
        refine goodRefs_setEntry _ _ _ hgood (fun e2 he2 => ?_)
        cases he2
        simp only
        omega

theorem goodRefs_updateNew (cs : CodeStore) (c : Bytes) (newH : Option Bytes)
    (hgood : goodRefs cs) : goodRefs (updateNewCodeStore cs c newH) := by
  rcases newH with _ | hn
  · exact hgood
  · simp only [updateNewCodeStore]
    rcases cs hn with _ | e
    · exact goodRefs_setEntry _ _ _ hgood (fun e2 he2 => by cases he2; simp)
    · exact goodRefs_setEntry _ _ _ hgood (fun e2 he2 => by cases he2; simp)

theorem opStep_goodRefs (hasher : Bytes → Bytes) (d : AccountsData) (op : Op)
    (hgood : goodRefs d.codeStore) : goodRefs (opStep hasher d op).1.codeStore := by
  cases op with
  | save a c =>
    by_cases hcH : ((d.accounts a).getD Account.empty).codeHash
        = (if c = [] then none else some (hasher c))
    · simp only [opStep, if_pos hcH]
      exact hgood
    · simp only [opStep, if_neg hcH]
      exact goodRefs_updateNew _ _ _ (goodRefs_updateOld _ _ hgood)
  | remove a =>
    simp only [opStep]
    rcases d.accounts a with _ | acc
    · exact hgood
    · exact goodRefs_updateOld _ _ hgood

/-- Reverting the journal entries appended by one mutation, from the tail
backwards, restores the data exactly. -/
theorem opStep_invert (hasher : Bytes → Bytes) (d : AccountsData) (op : Op)
    (hgood : goodRefs d.codeStore) :
    ((opStep hasher d op).2).reverse.foldl revertEntry (opStep hasher d op).1 = d := by
  cases op with
  | save a c =>
    rcases hacc : d.accounts a with _ | old
    · by_cases hcH : (none : Option Bytes) = (if c = [] then none else some (hasher c))
      · simp only [opStep, hacc, Option.getD_none, Account.empty, if_pos hcH,
          List.reverse_cons, List.reverse_nil, List.nil_append, List.singleton_append,
          List.foldl_cons, List.foldl_nil, revertEntry]
        refine AccountsData.ext (funext fun k => ?_) rfl
        by_cases hk : k = a <;> simp [hk, hacc]
      · simp only [opStep, hacc, Option.getD_none, Account.empty, if_neg hcH,
          List.reverse_cons, List.reverse_nil, List.nil_append, List.singleton_append,
          List.foldl_cons, List.foldl_nil, revertEntry]
        refine AccountsData.ext (funext fun k => ?_) (funext fun k => ?_)
        · by_cases hk : k = a <;> simp [hk, hacc]
        · exact congrFun (revert_update_cancel _ _ _ _ hgood hcH) k
    · by_cases hcH : old.codeHash = (if c = [] then none else some (hasher c))
      · simp only [opStep, hacc, Option.getD_some, if_pos hcH,
          List.reverse_cons, List.reverse_nil, List.nil_append, List.singleton_append,
          List.foldl_cons, List.foldl_nil, revertEntry]
        refine AccountsData.ext (funext fun k => ?_) rfl
        by_cases hk : k = a <;> simp [hk, hacc]
      · simp only [opStep, hacc, Option.getD_some, if_neg hcH,
          List.reverse_cons, List.reverse_nil, List.nil_append, List.singleton_append,
          List.foldl_cons, List.foldl_nil, revertEntry]
        refine AccountsData.ext (funext fun k => ?_) (funext fun k => ?_)
        · by_cases hk : k = a <;> simp [hk, hacc]
        · exact congrFun (revert_update_cancel _ _ _ _ hgood hcH) k
  | remove a =>
    rcases hacc : d.accounts a with _ | acc
    · simp only [opStep, hacc]
      rfl
    · simp only [opStep, hacc, List.reverse_cons, List.reverse_nil, List.nil_append,
        List.singleton_append, List.foldl_cons, List.foldl_nil, revertEntry]
      refine AccountsData.ext (funext fun k => ?_) (funext fun k => ?_)
      · by_cases hk : k = a <;> simp [hk, hacc]
      · rcases hch : acc.codeHash with _ | ho
        · simp [revertCodeStore, updateOldCodeStore]
        · have hne : (some ho : Option Bytes) ≠ none := by simp
          have hun : updateOldCodeStore d.codeStore (some ho)
              = updateNewCodeStore (updateOldCodeStore d.codeStore (some ho)) [] none := rfl
          rw [hun]
          exact congrFun (revert_update_cancel _ _ _ _ hgood hne) k

/-! ### Lemmas: composing mutations -/

theorem runOps_goodRefs (hasher : Bytes → Bytes) (ops : List Op) (d : AccountsData)
    (hgood : goodRefs d.codeStore) : goodRefs (runOps hasher d ops).1.codeStore := by
  induction ops generalizing d with
  | nil => exact hgood
  | cons op rest ih =>
    simp only [runOps]
    exact ih _ (opStep_goodRefs hasher d op hgood)

theorem runOps_invert (hasher : Bytes → Bytes) (ops : List Op) (d : AccountsData)
    (hgood : goodRefs d.codeStore) :
    ((runOps hasher d ops).2).reverse.foldl revertEntry (runOps hasher d ops).1 = d := by
  induction ops generalizing d with
  | nil => rfl
  | cons op rest ih =>
    simp only [runOps, List.reverse_append, List.foldl_append]
    rw [ih _ (opStep_goodRefs hasher d op hgood)]
    exact opStep_invert hasher d op hgood

theorem runOps_append (hasher : Bytes → Bytes) (l1 l2 : List Op) (d : AccountsData) :
    runOps hasher d (l1 ++ l2)
      = ((runOps hasher (runOps hasher d l1).1 l2).1,
         (runOps hasher d l1).2 ++ (runOps hasher (runOps hasher d l1).1 l2).2) := by
  induction l1 generalizing d with
  | nil => rfl
  | cons op rest ih =>
    simp only [List.cons_append, runOps, List.append_eq, ih, List.append_assoc]

theorem applyOps_eq_runOps (hasher : Bytes → Bytes) (ops : List Op) (s : AccountsDB) :
    applyOps hasher ops s
      = ⟨(runOps hasher s.data ops).1, s.journal ++ (runOps hasher s.data ops).2⟩ := by
  induction ops generalizing s with
  | nil => simp [applyOps, runOps]
  | cons op rest ih =>
    show applyOps hasher rest (applyOp hasher s op) = _
    rw [ih]
    simp [applyOp, runOps, List.append_assoc]

theorem initAccountsDB_goodRefs : goodRefs initAccountsDB.data.codeStore := by
  intro h e hc
  simp [initAccountsDB] at hc

/-- Revert exactness over full histories: after applying any list of
journaled mutations to a fresh accounts database, reverting to the journal
length observed after the first n mutations restores the database exactly as
it stood after those first n mutations. -/
theorem revert_applyOps (hasher : Bytes → Bytes) (ops : List Op) (n : Nat) :
    revertToSnapshot (applyOps hasher ops initAccountsDB)
      ((applyOps hasher (ops.take n) initAccountsDB).journal.length)
      = .ok (applyOps hasher (ops.take n) initAccountsDB) := by
  have hsplit := runOps_append hasher (ops.take n) (ops.drop n) initAccountsDB.data
  rw [List.take_append_drop] at hsplit
  have hfull := applyOps_eq_runOps hasher ops initAccountsDB
  have hpre := applyOps_eq_runOps hasher (ops.take n) initAccountsDB
  rw [hsplit] at hfull
  have hjinit : initAccountsDB.journal = [] := rfl
  rw [hjinit, List.nil_append] at hfull hpre
  rw [hfull, hpre]
  have hgood1 : goodRefs (runOps hasher initAccountsDB.data (ops.take n)).1.codeStore :=
    runOps_goodRefs hasher _ _ initAccountsDB_goodRefs
  have hinv := runOps_invert hasher (ops.drop n)
    (runOps hasher initAccountsDB.data (ops.take n)).1 hgood1
  simp only [revertToSnapshot]
  rw [if_neg (by simp)]
  rw [List.take_left, List.drop_left]
  rw [hinv]

theorem updateNewCodeStore_ne (cs : CodeStore) (c : Bytes) (hn k : Bytes) (hk : k ≠ hn) :
    updateNewCodeStore cs c (some hn) k = cs k := by
  simp only [updateNewCodeStore]
  rcases cs hn with _ | e
  · exact setEntry_other _ _ _ _ hk
  · exact setEntry_other _ _ _ _ hk

theorem opStep_save_fresh (hasher : Bytes → Bytes) (d : AccountsData) (a c : Bytes)
    (hacc : d.accounts a = none) (hc : ¬c = []) :
    opStep hasher d (.save a c)
      = ({ accounts := fun k =>
             if k = a then some { Account.empty with codeHash := some (hasher c) }
             else d.accounts k,
           codeStore := updateNewCodeStore d.codeStore c (some (hasher c)) },
         [.accountCreation a, .codeChange none none (some (hasher c))]) := by
  simp only [opStep, hacc, Option.getD_none, Account.empty, if_neg hc]
  rw [if_neg (by simp)]
  rfl

/-- Saving two distinct fresh accounts with the same code leaves the code
store with the single shared entry at reference count two. -/
theorem double_save_codeStore (hasher : Bytes → Bytes) (a1 a2 c : Bytes)
    (hne : a1 ≠ a2) (hc : ¬c = []) :
    (applyOps hasher [.save a1 c, .save a2 c] initAccountsDB).data.codeStore
      = setEntry (fun _ => none) (hasher c) (some { code := c, numReferences := 2 }) := by
  have h1 := opStep_save_fresh hasher initAccountsDB.data a1 c rfl hc
  have hacc2 : (opStep hasher initAccountsDB.data (.save a1 c)).1.accounts a2 = none := by
    rw [h1]
    simp only []
    rw [if_neg (Ne.symm hne)]
    rfl
  have h2 := opStep_save_fresh hasher (opStep hasher initAccountsDB.data (.save a1 c)).1 a2 c hacc2 hc
  have hdata : (applyOps hasher [.save a1 c, .save a2 c] initAccountsDB).data
      = (opStep hasher (opStep hasher initAccountsDB.data (.save a1 c)).1 (.save a2 c)).1 := rfl
  rw [hdata, h2]
  simp only []
  rw [h1]
  simp only []
  have hcs0 : updateNewCodeStore (fun _ => none) c (some (hasher c))
      = setEntry (fun _ => none) (hasher c) (some { code := c, numReferences := 1 }) := rfl
  have hcs1 : initAccountsDB.data.codeStore = (fun _ => none : CodeStore) := rfl
  rw [hcs1, hcs0]
  have hlook : setEntry (fun _ => none) (hasher c)
      (some { code := c, numReferences := 1 }) (hasher c)
      = some { code := c, numReferences := 1 } := setEntry_same _ _ _
  simp only [updateNewCodeStore, hlook, setEntry_setEntry]

/-! ### Lemmas: bounded header requests -/

theorem gapNonces_mem (lo hi m : Nat) : m ∈ gapNonces lo hi ↔ lo < m ∧ m < hi := by
  simp only [gapNonces, List.mem_range'_1]
  omega

theorem gapNonces_pairwise (lo hi : Nat) : List.Pairwise (· < ·) (gapNonces lo hi) :=
  List.pairwise_lt_range' _ _

/-- The scan of the sorted headers produces strictly increasing missing
nonces, all strictly between the starting nonce and the nonce of the last
retained header, which itself stays at or above the notarized watermark. -/
theorem walkSorted_spec (lastN : Nat) (hs : List HdrInfo) :
    ∀ prev : HdrInfo,
      List.Pairwise (fun x y => x.nonce < y.nonce) hs →
      lastN ≤ prev.nonce →
      (∀ x ∈ hs, prev.nonce ≤ x.nonce ∨ x.nonce ≤ lastN) →
      List.Pairwise (· < ·) (walkSorted lastN prev hs).1 ∧
      (∀ m ∈ (walkSorted lastN prev hs).1,
        prev.nonce < m ∧ m < (walkSorted lastN prev hs).2.nonce) ∧
      lastN ≤ (walkSorted lastN prev hs).2.nonce ∧
      prev.nonce ≤ (walkSorted lastN prev hs).2.nonce := by
  induction hs with
  | nil =>
    intro prev hsort hprev hcomp
    exact ⟨List.Pairwise.nil, by simp [walkSorted], hprev, Nat.le_refl _⟩
  | cons h rest ih =>
    intro prev hsort hprev hcomp
    obtain ⟨hhead, htail⟩ := List.pairwise_cons.mp hsort
    by_cases hskip : h.nonce ≤ lastN
    · rw [walkSorted, if_pos hskip]
      exact ih prev htail hprev (fun x hx => hcomp x (List.mem_cons_of_mem h hx))
    · have hlt : lastN < h.nonce := Nat.lt_of_not_le hskip
      have hprevh : prev.nonce ≤ h.nonce := by
        rcases hcomp h (List.mem_cons_self h rest) with h1 | h1
        · exact h1
        · omega
      obtain ⟨ihp, ihb, ihc, ihd⟩ := ih h htail (Nat.le_of_lt hlt)
        (fun x hx => Or.inl (Nat.le_of_lt (hhead x hx)))
      rw [walkSorted, if_neg hskip]
      simp only []
      refine ⟨?_, ?_, ihc, Nat.le_trans hprevh ihd⟩
      · refine List.pairwise_append.mpr ⟨gapNonces_pairwise _ _, ihp, ?_⟩
        intro x hx y hy
        have hx2 := (gapNonces_mem _ _ _).mp hx
        have hy2 := ihb y hy
        omega
      · intro m hm
        rcases List.mem_append.mp hm with hm1 | hm1
        · have hx2 := (gapNonces_mem _ _ _).mp hm1
          exact ⟨hx2.1, by omega⟩
        · have hy2 := ihb m hm1
          exact ⟨by omega, hy2.2⟩

theorem filter_le_range' (k n : Nat) (hk : k ≤ n) :
    (List.range' 1 n).filter (fun m => m ≤ k) = List.range' 1 k := by
  have hsplit : List.range' 1 n = List.range' 1 k ++ List.range' (1 + k) (n - k) := by
    rw [List.range'_append_1]
    congr 1
    omega
  rw [hsplit, List.filter_append]
  have h1 : (List.range' 1 k).filter (fun m => m ≤ k) = List.range' 1 k := by
    refine List.filter_eq_self.mpr (fun a ha => ?_)
    have := List.mem_range'_1.mp ha
    simpa using by omega
  have h2 : (List.range' (1 + k) (n - k)).filter (fun m => m ≤ k) = [] := by
    refine List.filter_eq_nil_iff.mpr (fun a ha => ?_)
    have := List.mem_range'_1.mp ha
    simpa using by omega
  rw [h1, h2, List.append_nil]

/-! ### Lemmas: big-endian epoch keys and notarization -/

/-- Big-endian decoding inverts big-endian encoding on values fitting the
requested width. -/
theorem toUint64BE_beBytes (k n : Nat) (h : n < 256 ^ k) : toUint64BE (beBytes k n) = n := by
  induction k generalizing n with
  | zero =>
    have hn : n = 0 := by
      simpa using h
    simp [hn, beBytes, toUint64BE]
  | succ k ih =>
    have hdiv : n / 256 < 256 ^ k := by
      rw [Nat.div_lt_iff_lt_mul (by norm_num)]
      calc n < 256 ^ (k + 1) := h
        _ = 256 ^ k * 256 := by rw [Nat.pow_succ]
    show toUint64BE (beBytes k (n / 256) ++ [n % 256]) = n
    unfold toUint64BE
    rw [List.foldl_append]
    have hrec : List.foldl (fun acc b => acc * 256 + b) 0 (beBytes k (n / 256)) = n / 256 :=
      ih _ hdiv
    rw [hrec, List.foldl_cons, List.foldl_nil]
    omega

theorem pickHighestNonce_nonce (first : Header) (rest : List Header) :
    (pickHighestNonce first rest).nonce
      = rest.foldl (fun m h => Nat.max m h.nonce) first.nonce := by
  induction rest generalizing first with
  | nil => rfl
  | cons h t ih =>
    show (pickHighestNonce (if first.nonce < h.nonce then h else first) t).nonce = _
    rw [ih]
    have hstep : (if first.nonce < h.nonce then h else first).nonce
        = Nat.max first.nonce h.nonce := by
      split
      next hlt => exact (Nat.max_eq_right (Nat.le_of_lt hlt)).symm
      next hlt => exact (Nat.max_eq_left (Nat.le_of_not_lt hlt)).symm
    rw [hstep]
    rfl

/-! ## Claim theorems -/

/-- C1: Reverting via the journal restores code reference counts exactly:
for every history of journaled mutations applied to a fresh accounts
database and every prefix of n mutations, RevertToSnapshot at the journal
index recorded after the first n mutations restores the database, code
reference counts included, to its exact state after those n mutations; in
particular after SaveAccount of two accounts with the same code (count 2)
followed by RemoveAccount of one (count 1), reverting to the pre-remove
index returns the count to 2. -/
theorem claimC1_revert_restores_code_refcounts :
    (∀ (hasher : Bytes → Bytes) (ops : List Op) (n : Nat), n ≤ ops.length →
      revertToSnapshot (applyOps hasher ops initAccountsDB)
        ((applyOps hasher (ops.take n) initAccountsDB).journal.length)
        = .ok (applyOps hasher (ops.take n) initAccountsDB)) ∧
    (applyOps idHasher (demoOps.take 2) initAccountsDB).data.codeStore demoCode
        = some { code := demoCode, numReferences := 2 } ∧
    (applyOps idHasher (demoOps.take 2) initAccountsDB).journal.length = 4 ∧
    (applyOps idHasher demoOps initAccountsDB).data.codeStore demoCode
        = some { code := demoCode, numReferences := 1 } ∧
    (match revertToSnapshot (applyOps idHasher demoOps initAccountsDB) 4 with
     | .ok s => s.data.codeStore demoCode
     | .error _ => none)
        = some { code := demoCode, numReferences := 2 } :=
  ⟨fun hasher ops n _ => revert_applyOps hasher ops n,
   by decide, by decide, by decide, by decide⟩

/-- Witness for C1: the revert-exactness theorem applied to the concrete
scenario, at prefix length 2 of the 3-mutation history. -/
theorem claimC1_witness :
    2 ≤ demoOps.length ∧
    revertToSnapshot (applyOps idHasher demoOps initAccountsDB)
      ((applyOps idHasher (demoOps.take 2) initAccountsDB).journal.length)
      = .ok (applyOps idHasher (demoOps.take 2) initAccountsDB) :=
  ⟨by decide, claimC1_revert_restores_code_refcounts.1 idHasher demoOps 2 (by decide)⟩

/-- C2: Code is stored deduplicated by hash with an explicit reference
count: two distinct fresh addresses saved with identical code produce
exactly one code-store entry, at reference count 2; SaveAccount replacing an
account code A by code B decrements the count of A (deleting the entry when
the count reaches zero) and increments or creates the count of B; removing
the last referencing account deletes the entry. -/
theorem claimC2_code_dedup_refcount :
    (∀ (hasher : Bytes → Bytes) (a1 a2 c : Bytes), a1 ≠ a2 → ¬c = [] →
      (applyOps hasher [.save a1 c, .save a2 c] initAccountsDB).data.codeStore (hasher c)
          = some { code := c, numReferences := 2 } ∧
      (∀ h2, h2 ≠ hasher c →
        (applyOps hasher [.save a1 c, .save a2 c] initAccountsDB).data.codeStore h2 = none)) ∧
    (∀ (hasher : Bytes → Bytes) (d : AccountsData) (a cB : Bytes) (acc : Account)
        (hA : Bytes) (eA : CodeEntry),
      d.accounts a = some acc → acc.codeHash = some hA →
      d.codeStore hA = some eA → ¬cB = [] → hasher cB ≠ hA →
      (opStep hasher d (.save a cB)).1.codeStore hA
          = (if eA.numReferences ≤ 1 then none
             else some { code := eA.code, numReferences := eA.numReferences - 1 }) ∧
      (opStep hasher d (.save a cB)).1.codeStore (hasher cB)
          = ((d.codeStore (hasher cB)).elim
               (some { code := cB, numReferences := 1 })
               (fun e => some { code := e.code, numReferences := e.numReferences + 1 }))) ∧
    (∀ (hasher : Bytes → Bytes) (d : AccountsData) (a : Bytes) (acc : Account)
        (hA : Bytes) (eA : CodeEntry),
      d.accounts a = some acc → acc.codeHash = some hA →
      d.codeStore hA = some eA → eA.numReferences ≤ 1 →
      (opStep hasher d (.remove a)).1.codeStore hA = none ∧
      (opStep hasher d (.remove a)).1.accounts a = none) := by
  refine ⟨?_, ?_, ?_⟩
  · intro hasher a1 a2 c hne hc
    rw [double_save_codeStore hasher a1 a2 c hne hc]
    exact ⟨setEntry_same _ _ _, fun h2 hh2 => setEntry_other _ _ _ _ hh2⟩
  · intro hasher d a cB acc hA eA hacc hch hstore hc hh
    have hcond2 : ¬((some hA : Option Bytes) = some (hasher cB)) := by
      intro h
      exact hh (Option.some.inj h).symm
    constructor
    · simp only [opStep, hacc, Option.getD_some, hch, if_neg hc]
      rw [if_neg hcond2]
      dsimp only
      rw [updateNewCodeStore_ne _ _ _ _ (Ne.symm hh)]
      simp only [updateOldCodeStore, hstore]
      by_cases hle : eA.numReferences ≤ 1
      · rw [if_pos hle, if_pos hle, setEntry_same]
      · rw [if_neg hle, if_neg hle, setEntry_same]
    · simp only [opStep, hacc, Option.getD_some, hch, if_neg hc]
      rw [if_neg hcond2]
      dsimp only
      have hother : updateOldCodeStore d.codeStore (some hA) (hasher cB)
          = d.codeStore (hasher cB) := updateOldCodeStore_ne _ _ _ hh
      simp only [updateNewCodeStore, hother]
      rcases d.codeStore (hasher cB) with _ | e
      · dsimp only
        rw [setEntry_same]
        rfl
      · dsimp only
        rw [setEntry_same]
        rfl
  · intro hasher d a acc hA eA hacc hch hstore hle
    constructor
    · simp only [opStep, hacc, hch]
      simp only [updateOldCodeStore, hstore]
      rw [if_pos hle, setEntry_same]
    · simp only [opStep, hacc]
      simp

/-- Witness for C2: the three parts instantiated on concrete accounts and
code bytes. -/
theorem claimC2_witness :
    (applyOps idHasher [.save [0] demoCode, .save [1] demoCode] initAccountsDB).data.codeStore
        (idHasher demoCode) = some { code := demoCode, numReferences := 2 } ∧
    (∀ h2, h2 ≠ idHasher demoCode →
      (applyOps idHasher [.save [0] demoCode, .save [1] demoCode] initAccountsDB).data.codeStore h2
        = none) :=
  claimC2_code_dedup_refcount.1 idHasher [0] [1] demoCode (by decide) (by decide)

/-- C3 counterexample: with stored head nonce 1, round 1, hash X, the
candidate with nonce 2, round 1, previous hash X is rejected with
ErrLowerRoundInBlock, not with ErrWrongNonceInBlock as the claim states:
the round check precedes the nonce check. -/
theorem claimC3_counterexample :
    checkBlockValidity bcX hdrNonce2Round1 = some .lowerRoundInBlock ∧
    checkBlockValidity bcX hdrNonce2Round1 ≠ some .wrongNonceInBlock := by
  decide

/-- C3 amended: with stored head nonce 1, round 1, hash X, the candidate
with nonce 2, round 1, previous hash X is rejected with ErrLowerRoundInBlock
(the round check precedes the nonce check), and the candidate with nonce 2,
round 2, previous hash X and matching previous random seed is accepted; in
general, against a stored head the rejection reasons are, in check order:
LowerRoundInBlock when the round does not strictly increase,
WrongNonceInBlock when the nonce is not head nonce plus one,
BlockHashDoesNotMatch when the previous hash mismatches the stored head
hash, and RandSeedDoesNotMatch when the previous random seed mismatches the
head randomness. -/
theorem claimC3_check_block_validity :
    (∀ (bc : Blockchain) (cur hdr : Header), bc.currentHeader = some cur →
      ((checkBlockValidity bc hdr = some .lowerRoundInBlock ↔ hdr.round ≤ cur.round) ∧
       (checkBlockValidity bc hdr = some .wrongNonceInBlock ↔
          cur.round < hdr.round ∧ hdr.nonce ≠ cur.nonce + 1) ∧
       (checkBlockValidity bc hdr = some .blockHashDoesNotMatch ↔
          cur.round < hdr.round ∧ hdr.nonce = cur.nonce + 1 ∧
          hdr.prevHash ≠ bc.currentHeaderHash) ∧
       (checkBlockValidity bc hdr = some .randSeedDoesNotMatch ↔
          cur.round < hdr.round ∧ hdr.nonce = cur.nonce + 1 ∧
          hdr.prevHash = bc.currentHeaderHash ∧ hdr.prevRandSeed ≠ cur.randSeed) ∧
       (checkBlockValidity bc hdr = none ↔
          cur.round < hdr.round ∧ hdr.nonce = cur.nonce + 1 ∧
          hdr.prevHash = bc.currentHeaderHash ∧ hdr.prevRandSeed = cur.randSeed))) ∧
    checkBlockValidity bcX hdrNonce2Round1 = some .lowerRoundInBlock ∧
    checkBlockValidity bcX hdrNonce2Round2 = none := by
  refine ⟨fun bc cur hdr hcur => ?_, by decide, by decide⟩
  simp only [checkBlockValidity, hcur]
  split_ifs with h1 h2 h3 h4 <;> simp_all [Nat.not_le, Nat.lt_irrefl]

/-- Witness for the amended C3 on the concrete stored head and the
round-regressing candidate. -/
theorem claimC3_witness :
    bcX.currentHeader = some headX ∧
    (checkBlockValidity bcX hdrNonce2Round1 = some .lowerRoundInBlock ↔
      hdrNonce2Round1.round ≤ headX.round) :=
  ⟨by decide, (claimC3_check_block_validity.1 bcX headX hdrNonce2Round1 (by decide)).1⟩

/-- C4 counterexample: with an empty stored chain head, the candidate with
nonce 1, round 1 and previous hash X is rejected with
ErrBlockHashDoesNotMatch, so the genesis case does not short-circuit every
candidate to valid. -/
theorem claimC4_counterexample :
    checkBlockValidity bcGenesis hdrGenesisBadPrev = some .blockHashDoesNotMatch ∧
    checkBlockValidity bcGenesis hdrGenesisBadPrev ≠ none := by
  decide

/-- C4 amended: with an empty stored chain head, CheckBlockValidity returns
nil exactly when the candidate nonce is the genesis nonce plus one and its
previous hash is the genesis header hash; otherwise it rejects with
WrongNonceInBlock when the nonce differs from genesis nonce plus one, and
with BlockHashDoesNotMatch when the nonce matches but the previous hash
differs from the genesis header hash. -/
theorem claimC4_genesis_case :
    ∀ (bc : Blockchain) (hdr : Header), bc.currentHeader = none →
      ((checkBlockValidity bc hdr = none ↔
          hdr.nonce = bc.genesisNonce + 1 ∧ hdr.prevHash = bc.genesisHeaderHash) ∧
       (hdr.nonce ≠ bc.genesisNonce + 1 →
          checkBlockValidity bc hdr = some .wrongNonceInBlock) ∧
       (hdr.nonce = bc.genesisNonce + 1 → hdr.prevHash ≠ bc.genesisHeaderHash →
          checkBlockValidity bc hdr = some .blockHashDoesNotMatch)) := by
  intro bc hdr hcur
  simp only [checkBlockValidity, hcur]
  split_ifs with h1 h2 <;> simp_all

/-- Witness for the amended C4 on the empty chain and the bad-previous-hash
candidate. -/
theorem claimC4_witness :
    bcGenesis.currentHeader = none ∧
    checkBlockValidity bcGenesis hdrGenesisBadPrev = some .blockHashDoesNotMatch :=
  ⟨by decide,
   ((claimC4_genesis_case bcGenesis hdrGenesisBadPrev (by decide)).2.2 (by decide) (by decide))⟩

/-- C5: ProcessBlock rejects a candidate whose epoch differs from the epoch
of the locally tracked epoch-start trigger with ErrEpochDoesNotMatch, except
when the candidate epoch-start metadata hash equals the metadata header hash
held by the trigger, in which case the epoch check passes and ProcessBlock
can return nil (with the declared root matching the computed root). -/
theorem claimC5_epoch_check :
    ∀ (bc : Blockchain) (trigger : EpochStartTrigger) (root : Bytes) (hdr : Header),
      checkBlockValidity bc hdr = none →
      ((hdr.epoch ≠ trigger.epoch → hdr.epochStartMetaHash ≠ trigger.epochStartMetaHdrHash →
          processBlock bc trigger root hdr = some .epochDoesNotMatch) ∧
       (hdr.epochStartMetaHash = trigger.epochStartMetaHdrHash →
          processBlock bc trigger root hdr ≠ some .epochDoesNotMatch ∧
          processBlock bc trigger hdr.rootHash hdr = none)) := by
  intro bc trigger root hdr hvalid
  constructor
  · intro hep hmeta
    simp [processBlock, hvalid, checkEpochCorrectness, hep, hmeta]
  · intro hmeta
    constructor
    · simp only [processBlock, hvalid, checkEpochCorrectness]
      rw [if_neg (by simp [hmeta])]
      split_ifs <;> simp
    · simp only [processBlock, hvalid, checkEpochCorrectness]
      rw [if_neg (by simp [hmeta])]
      simp

/-- Witness for C5: the epoch scenario with trigger epoch 2, candidate epoch
3 and attested epoch-start metadata hash passes the epoch check and
processes to nil. -/
theorem claimC5_witness :
    checkBlockValidity bcX hdrEpoch = none ∧
    processBlock bcX trigEpoch hdrEpoch.rootHash hdrEpoch = none :=
  ⟨by decide,
   ((claimC5_epoch_check bcX trigEpoch [] hdrEpoch (by decide)).2 (by decide)).2⟩

/-- C6 counterexample: at round maxHeaderRequestsAllowed + 1 (which is
larger than maxHeaderRequestsAllowed) with an empty sorted-headers list, the
requested nonces are 1 through 19, not 1 through maxHeaderRequestsAllowed:
the lookahead also subtracts two rounds, so the full window is only reached
from round maxHeaderRequestsAllowed + 2 on. -/
theorem claimC6_counterexample :
    maxHeaderRequestsAllowed < maxHeaderRequestsAllowed + 1 ∧
    requestHeadersIfMissing ⟨0, 0⟩ [] (maxHeaderRequestsAllowed + 1) = List.range' 1 19 ∧
    requestHeadersIfMissing ⟨0, 0⟩ [] (maxHeaderRequestsAllowed + 1)
      ≠ List.range' 1 maxHeaderRequestsAllowed := by
  decide

/-- C6 amended: for every sorted headers list and round,
RequestHeadersIfMissing issues at most maxHeaderRequestsAllowed distinct
nonce requests, at most one per missing nonce (the request list has no
duplicates and every requested nonce lies in the window of
maxHeaderRequestsAllowed nonces above the notarized watermark); with an
empty sorted-headers list and a round of at least
maxHeaderRequestsAllowed + 2 it requests exactly the nonces 1 through
maxHeaderRequestsAllowed and no more. -/
theorem claimC6_bounded_requests :
    (∀ (lastNotarized : HdrInfo) (sortedHeaders : List HdrInfo) (currentRound : Nat),
      List.Pairwise (fun x y => x.nonce < y.nonce) sortedHeaders →
      (requestHeadersIfMissing lastNotarized sortedHeaders currentRound).Nodup ∧
      (∀ m ∈ requestHeadersIfMissing lastNotarized sortedHeaders currentRound,
        lastNotarized.nonce < m ∧ m ≤ lastNotarized.nonce + maxHeaderRequestsAllowed) ∧
      (requestHeadersIfMissing lastNotarized sortedHeaders currentRound).length
        ≤ maxHeaderRequestsAllowed) ∧
    (∀ currentRound, maxHeaderRequestsAllowed + 2 ≤ currentRound →
      requestHeadersIfMissing ⟨0, 0⟩ [] currentRound
        = List.range' 1 maxHeaderRequestsAllowed) := by
  constructor
  · intro lastNotarized sortedHeaders currentRound hsort
    obtain ⟨hp, hb, hc, hd⟩ := walkSorted_spec lastNotarized.nonce sortedHeaders lastNotarized
      hsort (Nat.le_refl _) (fun x _ => Nat.le_total lastNotarized.nonce x.nonce)
    simp only [requestHeadersIfMissing]
    set p := walkSorted lastNotarized.nonce lastNotarized sortedHeaders with hpdef
    set ahead := (if p.2.round + 2 < currentRound then
        List.range' (p.2.nonce + 1) (currentRound - p.2.round - 2) else []) with hadef
    have haheadMem : ∀ m ∈ ahead, p.2.nonce < m := by
      intro m hm
      rw [hadef] at hm
      split at hm
      · have := List.mem_range'_1.mp hm
        omega
      · cases hm
    have haheadPw : List.Pairwise (· < ·) ahead := by
      rw [hadef]
      split
      · exact List.pairwise_lt_range' _ _
      · exact List.Pairwise.nil
    have hall : List.Pairwise (· < ·) (p.1 ++ ahead) := by
      refine List.pairwise_append.mpr ⟨hp, haheadPw, fun x hx y hy => ?_⟩
      have h1 := hb x hx
      have h2 := haheadMem y hy
      omega
    have hlow : ∀ m ∈ p.1 ++ ahead, lastNotarized.nonce < m := by
      intro m hm
      rcases List.mem_append.mp hm with hm1 | hm1
      · exact (hb m hm1).1
      · have := haheadMem m hm1
        omega
    have hfiltPw : List.Pairwise (· < ·)
        ((p.1 ++ ahead).filter (fun m => m ≤ lastNotarized.nonce + maxHeaderRequestsAllowed)) :=
      hall.filter _
    have hnodup : ((p.1 ++ ahead).filter
        (fun m => m ≤ lastNotarized.nonce + maxHeaderRequestsAllowed)).Nodup :=
      hfiltPw.imp Nat.ne_of_lt
    refine ⟨hnodup, ?_, ?_⟩
    · intro m hm
      obtain ⟨hmem, hple⟩ := List.mem_filter.mp hm
      exact ⟨hlow m hmem, by simpa using hple⟩
    · have hsub : ((p.1 ++ ahead).filter
          (fun m => m ≤ lastNotarized.nonce + maxHeaderRequestsAllowed))
          ⊆ List.range' (lastNotarized.nonce + 1) maxHeaderRequestsAllowed := by
        intro m hm
        obtain ⟨hmem, hple⟩ := List.mem_filter.mp hm
        have h1 := hlow m hmem
        have h2 : m ≤ lastNotarized.nonce + maxHeaderRequestsAllowed := by simpa using hple
        rw [List.mem_range'_1]
        omega
      have hlen := (hnodup.subperm hsub).length_le
      simpa using hlen
  · intro currentRound hR
    have hmax : maxHeaderRequestsAllowed = 20 := rfl
    show (([] ++ (if (0 : Nat) + 2 < currentRound then
          List.range' (0 + 1) (currentRound - 0 - 2) else [])).filter
        (fun m => m ≤ 0 + maxHeaderRequestsAllowed)) = List.range' 1 maxHeaderRequestsAllowed
    rw [List.nil_append, if_pos (by omega), Nat.zero_add, Nat.zero_add, Nat.sub_zero]
    exact filter_le_range' maxHeaderRequestsAllowed (currentRound - 2) (by omega)

/-- Witness for the amended C6: the bound applied to the sorted scenario of
the tests (watermark nonce 5, headers at nonces 8 and 10, round 15). -/
theorem claimC6_witness :
    List.Pairwise (fun x y : HdrInfo => x.nonce < y.nonce) [⟨8, 8⟩, ⟨10, 10⟩] ∧
    ((requestHeadersIfMissing ⟨5, 5⟩ [⟨8, 8⟩, ⟨10, 10⟩] 15).Nodup ∧
     (∀ m ∈ requestHeadersIfMissing ⟨5, 5⟩ [⟨8, 8⟩, ⟨10, 10⟩] 15,
       (5 : Nat) < m ∧ m ≤ 5 + maxHeaderRequestsAllowed) ∧
     (requestHeadersIfMissing ⟨5, 5⟩ [⟨8, 8⟩, ⟨10, 10⟩] 15).length
       ≤ maxHeaderRequestsAllowed) :=
  ⟨by decide, claimC6_bounded_requests.1 ⟨5, 5⟩ [⟨8, 8⟩, ⟨10, 10⟩] 15 (by decide)⟩

/-- C7: CommitTrieEpochRootHashIfNeeded for a header at epoch E writes the
committed root hash into the trie-epoch-root-hash unit under the big-endian
uint64 encoding of E (an encoding the big-endian converter decodes back to
E); with ProcessDataTrieOnCommitEpoch false the account leaves are
enumerated only at the accounts-trie root, without walking any per-account
data trie; with the flag true the enumeration is additionally invoked with
the own data-trie root hash of every account, not the accounts-trie root. -/
theorem claimC7_commit_trie_epoch_root_hash :
    ∀ (epoch : Nat) (root : Bytes) (leaves : List EpochAccount) (flag : Bool),
      (commitTrieEpochRootHashIfNeeded epoch root leaves flag).puts
          = [(beBytes 8 epoch, root)] ∧
      (epoch < 256 ^ 8 → toUint64BE (beBytes 8 epoch) = epoch) ∧
      (flag = false →
        (commitTrieEpochRootHashIfNeeded epoch root leaves flag).leafEnumerationRoots
          = [root]) ∧
      (flag = true →
        (commitTrieEpochRootHashIfNeeded epoch root leaves flag).leafEnumerationRoots
          = root :: leaves.map (fun l => l.dataTrieRootHash)) := by
  intro epoch root leaves flag
  refine ⟨rfl, fun h => toUint64BE_beBytes 8 epoch h, fun hf => ?_, fun hf => ?_⟩
  · subst hf
    rfl
  · subst hf
    rfl

/-- Witness for C7 at epoch 37: the big-endian key decodes back to 37, and
with the flag disabled only the accounts root is enumerated. -/
theorem claimC7_witness :
    37 < 256 ^ 8 ∧ toUint64BE (beBytes 8 37) = 37 ∧
    (commitTrieEpochRootHashIfNeeded 37 [9] [⟨[1], [2]⟩] false).leafEnumerationRoots = [[9]] :=
  ⟨by decide,
   (claimC7_commit_trie_epoch_root_hash 37 [9] [⟨[1], [2]⟩] false).2.1 (by decide),
   (claimC7_commit_trie_epoch_root_hash 37 [9] [⟨[1], [2]⟩] false).2.2.1 rfl⟩

/-- C8: SaveLastNotarizedHeader fails with
ErrNotarizedHeadersSliceForShardIsNil when the given shard (or the
internally tracked metachain slot) has no notarized-headers slice, and on
success for a tracked shard it appends the highest-nonce entry of the list,
so that LastNotarizedHdrForShard then returns a header whose nonce is the
maximum nonce of the list. -/
theorem claimC8_save_last_notarized :
    ∀ (st : NotarizationState) (shardId : Nat) (hdrs : List Header),
      (st.notarizedHdrs shardId = none →
        saveLastNotarizedHeader st shardId hdrs
          = .error .notarizedHeadersSliceForShardIsNil) ∧
      (st.notarizedHdrs metachainShardId = none →
        saveLastNotarizedHeader st shardId hdrs
          = .error .notarizedHeadersSliceForShardIsNil) ∧
      (∀ h rest cur curM, hdrs = h :: rest →
        st.notarizedHdrs shardId = some cur →
        st.notarizedHdrs metachainShardId = some curM →
        ∃ st2, saveLastNotarizedHeader st shardId hdrs = .ok st2 ∧
          ∃ last, lastNotarizedHdrForShard st2 shardId = some last ∧
            last.nonce = (hdrs.map Header.nonce).foldl Nat.max 0) := by
  intro st shardId hdrs
  refine ⟨fun hnone => ?_, fun hmeta => ?_, fun h rest cur curM hcons hsh hme => ?_⟩
  · simp [saveLastNotarizedHeader, hnone]
  · rcases hsh : st.notarizedHdrs shardId with _ | cur
    · simp [saveLastNotarizedHeader, hsh]
    · simp [saveLastNotarizedHeader, hsh, hmeta]
  · subst hcons
    refine ⟨{ notarizedHdrs := fun k =>
        if k = shardId then some (cur ++ [pickHighestNonce h rest])
        else st.notarizedHdrs k }, ?_, pickHighestNonce h rest, ?_, ?_⟩
    · simp [saveLastNotarizedHeader, hsh, hme]
    · simp [lastNotarizedHdrForShard, List.getLast?_concat]
    · rw [pickHighestNonce_nonce, List.map_cons, List.foldl_cons, List.foldl_map,
        show Nat.max 0 h.nonce = h.nonce from Nat.max_eq_right (Nat.zero_le _)]

/-- Witness for C8: an untracked shard is rejected, and on the tracked shard
the appended last notarized header carries the maximum nonce of the list. -/
theorem claimC8_witness :
    saveLastNotarizedHeader notarState 2 notarHdrs
      = .error .notarizedHeadersSliceForShardIsNil ∧
    (∃ st2, saveLastNotarizedHeader notarState 0 notarHdrs = .ok st2 ∧
      ∃ last, lastNotarizedHdrForShard st2 0 = some last ∧
        last.nonce = (notarHdrs.map Header.nonce).foldl Nat.max 0) :=
  ⟨(claimC8_save_last_notarized notarState 2 notarHdrs).1 (by decide),
   (claimC8_save_last_notarized notarState 0 notarHdrs).2.2
     { hdrZero with nonce := 1, round := 1 }
     [{ hdrZero with nonce := 10, round := 10 }, { hdrZero with nonce := 4, round := 4 }]
     [] [] rfl (by decide) (by decide)⟩

/-- C9: PruneStateOnRollback treats the main state trie and the validator
statistics trie independently: when the two headers agree on RootHash but
differ on the validator statistics root, only the peer accounts database is
acted on, with exactly one PruneTrie call for the previous validator root
and one CancelPrune call for the current validator root, while the user
accounts database receives no prune or cancel-prune call. -/
theorem claimC9_prune_state_on_rollback :
    ∀ (curr prev : Header) (userEnabled : Bool),
      curr.rootHash = prev.rootHash →
      curr.validatorStatsRootHash ≠ prev.validatorStatsRootHash →
      pruneStateOnRollback curr prev userEnabled true
        = [(.peer, .pruneTrie prev.validatorStatsRootHash),
           (.peer, .cancelPrune curr.validatorStatsRootHash)] ∧
      (∀ pr ∈ pruneStateOnRollback curr prev userEnabled true, pr.1 = DbId.peer) := by
  intro curr prev u h1 h2
  have heq : pruneStateOnRollback curr prev u true
      = [(.peer, .pruneTrie prev.validatorStatsRootHash),
         (.peer, .cancelPrune curr.validatorStatsRootHash)] := by
    simp [pruneStateOnRollback, h1, h2]
  refine ⟨heq, fun pr hpr => ?_⟩
  rw [heq] at hpr
  rcases List.mem_cons.mp hpr with rfl | hpr2
  · rfl
  · rcases List.mem_cons.mp hpr2 with rfl | hpr3
    · rfl
    · exact absurd hpr3 (List.not_mem_nil pr)

/-- Witness for C9: the concrete rollback scenario with equal state roots
and differing validator statistics roots. -/
theorem claimC9_witness :
    currRollback.rootHash = prevRollback.rootHash ∧
    currRollback.validatorStatsRootHash ≠ prevRollback.validatorStatsRootHash ∧
    pruneStateOnRollback currRollback prevRollback true true
      = [(.peer, .pruneTrie prevRollback.validatorStatsRootHash),
         (.peer, .cancelPrune currRollback.validatorStatsRootHash)] :=
  ⟨by decide, by decide,
   (claimC9_prune_state_on_rollback currRollback prevRollback true
     (by decide) (by decide)).1⟩

/-- C10: RevertToSnapshot with a snapshot index strictly greater than the
current journal length fails with ErrSnapshotValueOutOfBounds instead of
panicking or silently truncating; in particular index 1 on a freshly
created accounts database with an empty journal fails with that error. -/
theorem claimC10_revert_snapshot_out_of_bounds :
    (∀ (s : AccountsDB) (n : Nat), s.journal.length < n →
      revertToSnapshot s n = .error .snapshotValueOutOfBounds) ∧
    revertToSnapshot initAccountsDB 1 = .error .snapshotValueOutOfBounds := by
  refine ⟨fun s n h => ?_, rfl⟩
  simp [revertToSnapshot, h]

/-- Witness for C10: the bound theorem applied to the fresh database at
snapshot index 1. -/
theorem claimC10_witness :
    initAccountsDB.journal.length < 1 ∧
    revertToSnapshot initAccountsDB 1 = .error .snapshotValueOutOfBounds :=
  ⟨by decide, claimC10_revert_snapshot_out_of_bounds.1 initAccountsDB 1 (by decide)⟩

end Elrond
